import Mathlib

/-!
Verification of the DynamO event-driven molecular-dynamics core against its
specification.  The development shallowly embeds the relevant C++ sources:

* `magnet::intersection::parabola_sphere` (parabola_sphere.hpp),
* `dynamo::Simulation::Container` name lookup (simulation.hpp),
* `CUFile::initialise` / `CUFile::placeObjects` (the file input cell),
* the scheduler / event-loop contract of `dynamo::Simulation`, whose
  implementation file is not among the sources; those parts are modelled
  from the specification text and marked as such.

Real arithmetic on `double` is embedded as exact arithmetic on `ℚ`.
-/

namespace Dynamo

/-- A three-component vector, embedding `magnet::math::Vector` with exact
rational coordinates. -/
structure Vec3 where
  x : ℚ
  y : ℚ
  z : ℚ
deriving DecidableEq

namespace Vec3

/-- Componentwise addition. -/
def add (a b : Vec3) : Vec3 := ⟨a.x + b.x, a.y + b.y, a.z + b.z⟩

/-- Componentwise subtraction. -/
def sub (a b : Vec3) : Vec3 := ⟨a.x - b.x, a.y - b.y, a.z - b.z⟩

/-- Scalar multiplication. -/
def smul (q : ℚ) (a : Vec3) : Vec3 := ⟨q * a.x, q * a.y, q * a.z⟩

/-- Componentwise (Hadamard) product, used by `CUFile` to scale each axis by
the `dimensions` vector. -/
def cmul (d a : Vec3) : Vec3 := ⟨d.x * a.x, d.y * a.y, d.z * a.z⟩

/-- The dot product, embedding `operator|`. -/
def dot (a b : Vec3) : ℚ := a.x * b.x + a.y * b.y + a.z * b.z

/-- The squared norm, embedding `Vector::nrm2()`. -/
def nrm2 (a : Vec3) : ℚ := a.dot a

/-- The zero vector. -/
def zero : Vec3 := ⟨0, 0, 0⟩

end Vec3

/-! ### The parabola–sphere intersection polynomial

`parabola_sphere.hpp` fills a `detail::PolynomialFunction<4>`, whose stored
entries `f[0] … f[4]` are the derivatives at `t = 0` of the separation
function, so that the function value at `t` is the Taylor sum

  `f[0] + f[1]·t + f[2]·t²/2 + f[3]·t³/6 + f[4]·t⁴/24`. -/

/-- The five stored entries of a `detail::PolynomialFunction<4>`. -/
structure Poly4 where
  c0 : ℚ
  c1 : ℚ
  c2 : ℚ
  c3 : ℚ
  c4 : ℚ
deriving DecidableEq

namespace Poly4

/-- Value at `t` of the function whose `k`-th derivative at `0` is `ck`. -/
def taylorEval (f : Poly4) (t : ℚ) : ℚ :=
  f.c0 + f.c1 * t + f.c2 * t ^ 2 / 2 + f.c3 * t ^ 3 / 6 + f.c4 * t ^ 4 / 24

/-- `PolynomialFunction::flipSign`, negating every stored entry. -/
def flipSign (f : Poly4) : Poly4 := ⟨-f.c0, -f.c1, -f.c2, -f.c3, -f.c4⟩

theorem taylorEval_flipSign (f : Poly4) (t : ℚ) :
    f.flipSign.taylorEval t = -(f.taylorEval t) := by
  simp only [flipSign, taylorEval]
  ring

end Poly4

/-- The polynomial built by `parabola_sphere` (parabola_sphere.hpp lines
36–40): `f[0] = R.nrm2() - r*r`, `f[1] = 2 (V|R)`, `f[2] = 2 (V.nrm2() + (A|R))`,
`f[3] = 6 (A|V)`, `f[4] = 6 A.nrm2()`. -/
def parabolaPoly (R V A : Vec3) (r : ℚ) : Poly4 :=
  { c0 := R.nrm2 - r * r
    c1 := 2 * (V.dot R)
    c2 := 2 * (V.nrm2 + A.dot R)
    c3 := 6 * (A.dot V)
    c4 := 6 * A.nrm2 }

/-- The uniformly accelerated trajectory `R + V·t + ½·A·t²` of the ray
relative to the sphere centre. -/
def traj (R V A : Vec3) (t : ℚ) : Vec3 :=
  (R.add (Vec3.smul t V)).add (Vec3.smul (t ^ 2 / 2) A)

/-- Squared separation of the trajectory from the sphere centre at time `t`. -/
def sep2 (R V A : Vec3) (t : ℚ) : ℚ := (traj R V A t).nrm2

/-- `t` is the smallest positive root of `g`. -/
def FirstPositiveRoot (g : ℚ → ℚ) (t : ℚ) : Prop :=
  0 < t ∧ g t = 0 ∧ ∀ s, 0 < s → g s = 0 → t ≤ s

/-- Modelled from the spec: `detail::nextEvent` (declared in
`magnet/intersection/polynomial.hpp`, which is not among the sources)
returns the time of the first intersection — the smallest positive root of
the stored polynomial — or `HUGE_VAL` when no positive root exists.  A
`some t` return models a finite root, `none` models `HUGE_VAL`. -/
def nextEventReturns (f : Poly4) : Option ℚ → Prop
  | some t => FirstPositiveRoot f.taylorEval t
  | none => ∀ t, 0 < t → f.taylorEval t ≠ 0

/-- `parabola_sphere<inverse>(R, V, A, r)`: build the polynomial, flip its
sign when `inverse`, and hand it to `nextEvent`.  The relation holds of the
results the call may return. -/
def parabola_sphere (inverse : Bool) (R V A : Vec3) (r : ℚ) (res : Option ℚ) : Prop :=
  nextEventReturns (cond inverse (parabolaPoly R V A r).flipSign (parabolaPoly R V A r)) res

/-- The stored entries are exactly the derivatives at `0` of
`f(t) = |R + V t + ½ A t²|² − r²`: the Taylor sum reproduces the separation
function at every time. -/
theorem parabolaPoly_taylorEval (R V A : Vec3) (r t : ℚ) :
    (parabolaPoly R V A r).taylorEval t = sep2 R V A t - r ^ 2 := by
  obtain ⟨Rx, Ry, Rz⟩ := R
  obtain ⟨Vx, Vy, Vz⟩ := V
  obtain ⟨Ax, Ay, Az⟩ := A
  simp only [parabolaPoly, Poly4.taylorEval, sep2, traj, Vec3.add, Vec3.smul,
    Vec3.nrm2, Vec3.dot]
  ring

theorem firstPositiveRoot_congr {g h : ℚ → ℚ} (e : ∀ s, g s = h s) (t : ℚ) :
    FirstPositiveRoot g t ↔ FirstPositiveRoot h t := by
  have hgh : g = h := funext e
  rw [hgh]

/-- **C1.** `parabola_sphere(R, V, A, r)` builds the degree-4 polynomial whose
`k`-th stored coefficient equals the `k`-th derivative at `t = 0` of
`f(t) = |R + V·t + ½·A·t²|² − r²` (first conjunct), and returns the time of
the first intersection of the uniformly accelerated trajectory with the
sphere of radius `r` — the smallest positive root of `|R + V·t + ½·A·t²|² = r²`
(second conjunct) — or `HUGE_VAL`, modelled by `none`, when no positive root
exists (third conjunct). -/
theorem parabola_sphere_first_intersection (R V A : Vec3) (r : ℚ) :
    (∀ t, (parabolaPoly R V A r).taylorEval t = sep2 R V A t - r ^ 2) ∧
    (∀ t, parabola_sphere false R V A r (some t) ↔
      (0 < t ∧ sep2 R V A t = r ^ 2 ∧ ∀ s, 0 < s → sep2 R V A s = r ^ 2 → t ≤ s)) ∧
    (parabola_sphere false R V A r none ↔ ∀ t, 0 < t → sep2 R V A t ≠ r ^ 2) := by
  have heq : ∀ s, (parabolaPoly R V A r).taylorEval s = 0 ↔ sep2 R V A s = r ^ 2 := by
    intro s
    rw [parabolaPoly_taylorEval, sub_eq_zero]
  refine ⟨fun t => parabolaPoly_taylorEval R V A r t, fun t => ?_, ?_⟩
  · show FirstPositiveRoot (parabolaPoly R V A r).taylorEval t ↔ _
    unfold FirstPositiveRoot
    constructor
    · rintro ⟨h1, h2, h3⟩
      exact ⟨h1, (heq t).1 h2, fun s hs hr => h3 s hs ((heq s).2 hr)⟩
    · rintro ⟨h1, h2, h3⟩
      exact ⟨h1, (heq t).2 h2, fun s hs hr => h3 s hs ((heq s).1 hr)⟩
  · show (∀ t, 0 < t → (parabolaPoly R V A r).taylorEval t ≠ 0) ↔ _
    constructor
    · intro h t ht hcontact
      exact h t ht ((heq t).2 hcontact)
    · intro h t ht hzero
      exact h t ht ((heq t).1 hzero)

/-- **C6.** The inside-out instantiation `parabola_sphere<true>` returns the
first positive root of the sign-flipped separation polynomial `−f(t)` — the
exit time of the inside configuration — while `parabola_sphere<false>`
returns the first positive root of `f(t)`, the outside configuration's
contact time. -/
theorem parabola_sphere_inverse_flips (R V A : Vec3) (r t : ℚ) :
    (parabola_sphere true R V A r (some t) ↔
      FirstPositiveRoot (fun s => -(sep2 R V A s - r ^ 2)) t) ∧
    (parabola_sphere false R V A r (some t) ↔
      FirstPositiveRoot (fun s => sep2 R V A s - r ^ 2) t) := by
  constructor
  · show FirstPositiveRoot (parabolaPoly R V A r).flipSign.taylorEval t ↔ _
    exact firstPositiveRoot_congr
      (fun s => by rw [Poly4.taylorEval_flipSign, parabolaPoly_taylorEval]) t
  · show FirstPositiveRoot (parabolaPoly R V A r).taylorEval t ↔ _
    exact firstPositiveRoot_congr (fun s => parabolaPoly_taylorEval R V A r s) t

/-! ### `dynamo::Simulation::Container` name lookup (part_001, lines 77–108)

`operator[](name)` scans the underlying `std::vector` from the front and
returns the first element whose `getName()` equals `name`, throwing
(`M_throw`) when the scan falls off the end; `find(name)` performs the same
scan but returns the end iterator instead of throwing.  The scan order is
the registration (push-back) order.  `none` models the throw / end
iterator. -/

/-- `Container::operator[](name)`: first stored element whose `getName()`
equals `name`, or `none` for the `M_throw`. -/
def containerGet {α : Type} (getName : α → String) (name : String) : List α → Option α
  | [] => none
  | p :: ps => if getName p = name then some p else containerGet getName name ps

/-- `Container::find(name)`: index of the first stored element whose
`getName()` equals `name` (the returned iterator), or `none` for the end
iterator. -/
def containerFind {α : Type} (getName : α → String) (name : String) : List α → Option ℕ
  | [] => none
  | p :: ps =>
    if getName p = name then some 0
    else (containerFind getName name ps).map (fun i => i + 1)

theorem containerGet_eq_none_iff {α : Type} (getName : α → String) (name : String)
    (xs : List α) :
    containerGet getName name xs = none ↔ ∀ x ∈ xs, getName x ≠ name := by
  induction xs with
  | nil => simp [containerGet]
  | cons p ps ih =>
    by_cases h : getName p = name
    · simp [containerGet, h]
    · simp only [containerGet, if_neg h, ih, List.mem_cons]
      constructor
      · rintro hall x (rfl | hx)
        · exact h
        · exact hall x hx
      · intro hall x hx
        exact hall x (Or.inr hx)

theorem containerFind_eq_none_iff {α : Type} (getName : α → String) (name : String)
    (xs : List α) :
    containerFind getName name xs = none ↔ containerGet getName name xs = none := by
  induction xs with
  | nil => simp [containerFind, containerGet]
  | cons p ps ih =>
    by_cases h : getName p = name
    · simp [containerFind, containerGet, h]
    · simp [containerFind, containerGet, h, ih]

theorem containerFind_first_match {α : Type} (getName : α → String) (name : String) :
    ∀ (xs : List α) (i : ℕ), containerFind getName name xs = some i →
      ∃ h : i < xs.length,
        containerGet getName name xs = some (xs.get ⟨i, h⟩) ∧
        getName (xs.get ⟨i, h⟩) = name ∧
        ∀ j (hj : j < i), getName (xs.get ⟨j, Nat.lt_trans hj h⟩) ≠ name := by
  intro xs
  induction xs with
  | nil => intro i hi; simp [containerFind] at hi
  | cons p ps ih =>
    intro i hi
    by_cases h : getName p = name
    · have hi0 : i = 0 := by
        simp [containerFind, h] at hi
        omega
      subst hi0
      refine ⟨Nat.succ_pos _, ?_, h, fun j hj => absurd hj (Nat.not_lt_zero j)⟩
      simp [containerGet, h]
    · simp only [containerFind, if_neg h, Option.map_eq_some'] at hi
      obtain ⟨i', hfind, hsucc⟩ := hi
      subst hsucc
      obtain ⟨hlen, hget, hname, hprev⟩ := ih i' hfind
      refine ⟨Nat.succ_lt_succ hlen, ?_, hname, ?_⟩
      · show containerGet getName name (p :: ps) = some (ps.get ⟨i', hlen⟩)
        simpa [containerGet, if_neg h] using hget
      · intro j hj
        cases j with
        | zero => exact h
        | succ k => exact hprev k (Nat.lt_of_succ_lt_succ hj)

/-- **C9.** For every `Simulation::Container` and name string, `operator[]`
returns the first stored element (in registration order) whose `getName()`
equals the name and throws exactly when no stored element matches, while
`find` returns the end iterator in exactly that case without throwing. -/
theorem container_name_lookup {α : Type} (getName : α → String) (name : String)
    (xs : List α) :
    (containerGet getName name xs = none ↔ ∀ x ∈ xs, getName x ≠ name) ∧
    (containerGet getName name xs = none ↔ containerFind getName name xs = none) ∧
    (∀ i, containerFind getName name xs = some i →
      ∃ h : i < xs.length,
        containerGet getName name xs = some (xs.get ⟨i, h⟩) ∧
        getName (xs.get ⟨i, h⟩) = name ∧
        ∀ j (hj : j < i), getName (xs.get ⟨j, Nat.lt_trans hj h⟩) ≠ name) :=
  ⟨containerGet_eq_none_iff getName name xs,
   (containerFind_eq_none_iff getName name xs).symm,
   containerFind_first_match getName name xs⟩

/-! ### `CUFile` — the file input cell (part_002) -/

/-- Componentwise sum of a list of vectors, as accumulated by the
`centreOPoints` loop. -/
def vsum : List Vec3 → Vec3
  | [] => Vec3.zero
  | v :: vs => v.add (vsum vs)

/-- The position clean-up of `CUFile::initialise` (part_002 lines 116–128):
compute the mean of all loaded positions, translate every position by its
negation, then scale each axis by the `dimensions` vector. -/
def fileInitialise (dims : Vec3) (pts : List Vec3) : List Vec3 :=
  (pts.map (fun v => v.sub (Vec3.smul (1 / (pts.length : ℚ)) (vsum pts)))).map
    (fun v => Vec3.cmul dims v)

/-- `CUFile::placeObjects(centre)` (part_002 lines 134–143): walk the cached
positions in file order, appending the placements of the inner cell `uc` at
`position + centre`. -/
def placeObjects (uc : Vec3 → List Vec3) (cache : List Vec3) (centre : Vec3) : List Vec3 :=
  cache.foldl (fun acc position => acc ++ uc (position.add centre)) []

theorem vsum_components : ∀ l : List Vec3,
    vsum l = ⟨(l.map Vec3.x).sum, (l.map Vec3.y).sum, (l.map Vec3.z).sum⟩
  | [] => by simp [vsum, Vec3.zero]
  | v :: l => by simp [vsum, Vec3.add, vsum_components l]

theorem sum_map_scaled_sub (d c : ℚ) (proj : Vec3 → ℚ) :
    ∀ l : List Vec3,
      (l.map (fun v => d * (proj v - c))).sum = d * (l.map proj).sum - d * l.length * c
  | [] => by simp
  | v :: l => by
    simp only [List.map_cons, List.sum_cons, sum_map_scaled_sub d c proj l,
      List.length_cons]
    push_cast
    ring

theorem placeObjects_foldl (uc : Vec3 → List Vec3) (centre : Vec3) :
    ∀ (cache acc : List Vec3),
      cache.foldl (fun a position => a ++ uc (position.add centre)) acc
        = acc ++ (cache.map (fun position => uc (position.add centre))).flatten
  | [], acc => by simp
  | p :: c, acc => by
    simp only [List.foldl_cons, placeObjects_foldl uc centre c, List.map_cons,
      List.flatten_cons, List.append_assoc]

theorem fileInitialise_sum_zero (dims : Vec3) (pts : List Vec3) (hne : pts ≠ []) :
    vsum (fileInitialise dims pts) = Vec3.zero := by
  have hn : ((pts.length : ℚ)) ≠ 0 := by
    have h0 : pts.length ≠ 0 := by simpa [List.length_eq_zero] using hne
    exact_mod_cast h0
  have key : ∀ (d : ℚ) (proj : Vec3 → ℚ),
      (pts.map (fun v => d * (proj v - 1 / (pts.length : ℚ) * (pts.map proj).sum))).sum = 0 := by
    intro d proj
    rw [sum_map_scaled_sub]
    field_simp
    ring
  have hx : (fileInitialise dims pts).map Vec3.x
      = pts.map (fun v => dims.x * (v.x - (Vec3.smul (1 / (pts.length : ℚ)) (vsum pts)).x)) := by
    simp only [fileInitialise, List.map_map]
    rfl
  have hy : (fileInitialise dims pts).map Vec3.y
      = pts.map (fun v => dims.y * (v.y - (Vec3.smul (1 / (pts.length : ℚ)) (vsum pts)).y)) := by
    simp only [fileInitialise, List.map_map]
    rfl
  have hz : (fileInitialise dims pts).map Vec3.z
      = pts.map (fun v => dims.z * (v.z - (Vec3.smul (1 / (pts.length : ℚ)) (vsum pts)).z)) := by
    simp only [fileInitialise, List.map_map]
    rfl
  rw [vsum_components, hx, hy, hz]
  simp only [Vec3.smul, vsum_components pts, Vec3.zero, Vec3.mk.injEq]
  exact ⟨key dims.x Vec3.x, key dims.y Vec3.y, key dims.z Vec3.z⟩

/-- **C10.** After `CUFile::initialise()` succeeds on a non-empty particle
file, the cached positions have zero centroid: each loaded position is
translated by minus the mean of all loaded positions and then scaled per
axis by the `dimensions` vector, so the componentwise sum of the cache is
the zero vector in exact arithmetic; and `placeObjects(centre)` returns, in
file order, the placements of each cached position offset by `centre`. -/
theorem fileCell_centroid_and_placement (dims centre : Vec3) (uc : Vec3 → List Vec3)
    (pts cache : List Vec3) (hne : pts ≠ []) :
    vsum (fileInitialise dims pts) = Vec3.zero ∧
    placeObjects uc cache centre
      = (cache.map (fun position => uc (position.add centre))).flatten :=
  ⟨fileInitialise_sum_zero dims pts hne, placeObjects_foldl uc centre cache []⟩

/-- Witness for C10 at a concrete two-point file and a one-placement inner
cell. -/
theorem fileCell_centroid_and_placement_witness :
    ([⟨1, 2, 3⟩, ⟨5, 6, 7⟩] : List Vec3) ≠ [] ∧
    (vsum (fileInitialise ⟨2, 1, 1⟩ [⟨1, 2, 3⟩, ⟨5, 6, 7⟩]) = Vec3.zero ∧
     placeObjects (fun v => [v]) [⟨1, 0, 0⟩] ⟨1, 1, 1⟩
       = (([⟨1, 0, 0⟩] : List Vec3).map (fun position => [position.add ⟨1, 1, 1⟩])).flatten) :=
  ⟨by decide,
   fileCell_centroid_and_placement ⟨2, 1, 1⟩ ⟨1, 1, 1⟩ (fun v => [v])
     [⟨1, 2, 3⟩, ⟨5, 6, 7⟩] [⟨1, 0, 0⟩] (by decide)⟩

/-! ### The Simulation event loop (modelled from the spec)

The implementation of `dynamo::Simulation::initialise`, `reset`,
`runSimulationStep` and `simShutdown` is not among the sources — only the
class declaration (part_001) and the test driver are.  The sorter's `pop`,
the loop body and the reset contract below are modelled from the
specification (§4.F, §4.G, §5) and the declaration's comments. -/

/-- A particle: identity is the list index, state is position and
velocity. -/
structure Part where
  pos : Vec3
  vel : Vec3
deriving DecidableEq

/-- A queued event: its firing time and its primary participant. -/
structure Event where
  time : ℚ
  pid : ℕ
deriving DecidableEq

/-- Modelled from the spec: the deterministic physics callbacks the loop
dispatches into (dynamics, interactions, globals).  `buildQueue` is the
initial enqueue pass of `initialise`, `updateParticles` the event
executor, `recompute` the per-event regeneration of future events, and
`nextRng` the PRNG step. -/
structure Engine where
  buildQueue : List Part → List Event
  updateParticles : Event → List Part → List Part
  recompute : ℚ → List Part → List Event
  nextRng : ℕ → ℕ

/-- The state the dynamics acts on: particles, pending events, the
extended-precision `systemTime`, and the PRNG state. -/
structure SimCore where
  particles : List Part
  queue : List Event
  systemTime : ℚ
  rng : ℕ
deriving DecidableEq

/-- The bookkeeping around the core: executed and maximum event counts, the
per-particle event counters, the accumulated event history, and the
cooperative shutdown flag. -/
structure SimState where
  core : SimCore
  eventCount : ℕ
  endEventCount : ℕ
  ecounters : List ℕ
  history : List Event
  shutdownRequested : Bool

/-- Modelled from the spec (§4.F): the sorter's `pop` returns the queued
event of globally smallest time together with the rest of the queue, or
`none` on an empty queue. -/
def popMin : List Event → Option (Event × List Event)
  | [] => none
  | e :: es =>
    match popMin es with
    | none => some (e, [])
    | some (m, rest) => if e.time ≤ m.time then some (e, es) else some (m, e :: rest)

theorem popMin_eq_none : ∀ q : List Event, popMin q = none → q = []
  | [], _ => rfl
  | a :: as, h => by
    simp only [popMin] at h
    split at h
    · exact absurd h (by simp)
    · split at h <;> exact absurd h (by simp)

theorem popMin_spec : ∀ (q : List Event) (e : Event) (rest : List Event),
    popMin q = some (e, rest) →
      e ∈ q ∧ (∀ x ∈ rest, x ∈ q) ∧ ∀ x ∈ q, e.time ≤ x.time
  | [], e, rest => by intro h; simp [popMin] at h
  | a :: as, e, rest => by
    intro h
    simp only [popMin] at h
    split at h
    · rename_i heq
      have has : as = [] := popMin_eq_none as heq
      simp only [Option.some.injEq, Prod.mk.injEq] at h
      obtain ⟨rfl, rfl⟩ := h
      subst has
      refine ⟨by simp, by simp, ?_⟩
      intro x hx
      rcases List.mem_singleton.mp hx with rfl
      exact le_refl _
    · rename_i m mrest heq
      obtain ⟨hmem, hsub, hmin⟩ := popMin_spec as m mrest heq
      split at h
      · rename_i hle
        simp only [Option.some.injEq, Prod.mk.injEq] at h
        obtain ⟨rfl, rfl⟩ := h
        refine ⟨List.mem_cons_self a as, fun x hx => List.mem_cons_of_mem a hx, ?_⟩
        intro x hx
        rcases List.mem_cons.mp hx with rfl | hx
        · exact le_refl _
        · exact le_trans hle (hmin x hx)
      · rename_i hle
        simp only [Option.some.injEq, Prod.mk.injEq] at h
        obtain ⟨rfl, rfl⟩ := h
        refine ⟨List.mem_cons_of_mem a hmem, ?_, ?_⟩
        · intro x hx
          rcases List.mem_cons.mp hx with rfl | hx
          · exact List.mem_cons_self x as
          · exact List.mem_cons_of_mem a (hsub x hx)
        · intro x hx
          rcases List.mem_cons.mp hx with rfl | hx
          · exact le_of_lt (lt_of_not_le hle)
          · exact hmin x hx

/-- Modelled from the spec (§4.G): execute one event atomically — pop the
earliest event, advance `systemTime` to its time, update the participating
particles, and regenerate future events for them. -/
def executeEvent (E : Engine) (c : SimCore) : SimCore :=
  match popMin c.queue with
  | none => c
  | some (e, rest) =>
    { particles := E.updateParticles e c.particles
      queue := rest ++ E.recompute e.time (E.updateParticles e c.particles)
      systemTime := e.time
      rng := E.nextRng c.rng }

/-- Modelled from the spec (§4.G, part_001 lines 277–301): one iteration of
the main loop.  The event budget and the shutdown flag are checked before
any event work; when the check fails the step returns `false` leaving the
state untouched, otherwise one whole event executes. -/
def runSimulationStep (E : Engine) (s : SimState) : Bool × SimState :=
  if s.endEventCount ≤ s.eventCount ∨ s.shutdownRequested = true then (false, s)
  else
    (true,
      { core := executeEvent E s.core
        eventCount := s.eventCount + 1
        endEventCount := s.endEventCount
        ecounters :=
          match popMin s.core.queue with
          | some (e, _) => s.ecounters.set e.pid (s.ecounters.getD e.pid 0 + 1)
          | none => s.ecounters
        history :=
          match popMin s.core.queue with
          | some (e, _) => s.history ++ [e]
          | none => s.history
        shutdownRequested := s.shutdownRequested })

/-- `Simulation::simShutdown()` (modelled from the spec §5): set the
cooperative shutdown flag; nothing else changes. -/
def simShutdown (s : SimState) : SimState :=
  { s with shutdownRequested := true }

/-- Modelled from the spec (§4.G Initialisation): build the initial event
queue from the current particle state. -/
def initialise (E : Engine) (s : SimState) : SimState :=
  { s with core := { s.core with queue := E.buildQueue s.core.particles } }

/-- Modelled from the spec (§4.G Reset, part_001 lines 132–139): discard
the accumulated event history, re-zero the event counters, rebuild the
queue; particle positions and velocities are preserved. -/
def reset (E : Engine) (s : SimState) : SimState :=
  { core := { s.core with queue := E.buildQueue s.core.particles }
    eventCount := 0
    endEventCount := s.endEventCount
    ecounters := s.ecounters.map (fun _ => 0)
    history := []
    shutdownRequested := s.shutdownRequested }

/-- **C4.** `reset()` preserves every particle's position and velocity —
for every particle id, `r` and `v` equal their values immediately before
the call — while the accumulated event history is discarded, the event
counters are re-zeroed, and the event queue is rebuilt. -/
theorem reset_frame (E : Engine) (s : SimState) :
    (∀ i : ℕ, ((reset E s).core.particles[i]?).map Part.pos
        = (s.core.particles[i]?).map Part.pos) ∧
    (∀ i : ℕ, ((reset E s).core.particles[i]?).map Part.vel
        = (s.core.particles[i]?).map Part.vel) ∧
    (reset E s).history = [] ∧
    (reset E s).eventCount = 0 ∧
    (∀ c ∈ (reset E s).ecounters, c = 0) ∧
    (reset E s).core.queue = E.buildQueue s.core.particles := by
  refine ⟨fun i => rfl, fun i => rfl, rfl, rfl, ?_, rfl⟩
  intro c hc
  simp only [reset, List.mem_map] at hc
  obtain ⟨a, _, h⟩ := hc
  exact h.symm

/-- **C2.** `reset()` followed by `initialise()` on a Simulation holding
the same configuration (same particle state, same stored PRNG state, same
simulation time) reproduces the same initial event queue, so a second run
of equal event count proceeds identically — the core state after any
number of executed events coincides — with a run started without the
reset. -/
theorem reset_initialise_reproduces (E : Engine) (s t : SimState)
    (hp : s.core.particles = t.core.particles)
    (hr : s.core.rng = t.core.rng)
    (ht : s.core.systemTime = t.core.systemTime) :
    (initialise E (reset E s)).core.queue = (initialise E t).core.queue ∧
    ∀ n, (executeEvent E)^[n] (initialise E (reset E s)).core
        = (executeEvent E)^[n] (initialise E t).core := by
  have hcore : (initialise E (reset E s)).core = (initialise E t).core := by
    show SimCore.mk s.core.particles (E.buildQueue s.core.particles)
        s.core.systemTime s.core.rng
      = SimCore.mk t.core.particles (E.buildQueue t.core.particles)
        t.core.systemTime t.core.rng
    rw [hp, hr, ht]
  exact ⟨by rw [hcore], fun n => by rw [hcore]⟩

/-- **C5.** The main loop runs exactly while `eventCount < endEventCount`
and no shutdown has been requested: `runSimulationStep` returns `false`
(leaving the state untouched) once the event budget is exhausted or the
flag is set, a successful step executes exactly one whole event, and
`simShutdown` sets a flag that is checked only between events, so the step
after it returns `false` with the state unchanged and no event is ever
interrupted mid-execution. -/
theorem runSimulationStep_loop (E : Engine) (s : SimState) :
    ((runSimulationStep E s).1 = false ↔
      s.endEventCount ≤ s.eventCount ∨ s.shutdownRequested = true) ∧
    ((s.endEventCount ≤ s.eventCount ∨ s.shutdownRequested = true) →
      runSimulationStep E s = (false, s)) ∧
    ((runSimulationStep E s).1 = true →
      (runSimulationStep E s).2.eventCount = s.eventCount + 1 ∧
      (runSimulationStep E s).2.core = executeEvent E s.core) ∧
    runSimulationStep E (simShutdown s) = (false, simShutdown s) := by
  have hshut : runSimulationStep E (simShutdown s) = (false, simShutdown s) := by
    have hflag : (simShutdown s).shutdownRequested = true := rfl
    simp [runSimulationStep, hflag]
  by_cases hc : s.endEventCount ≤ s.eventCount ∨ s.shutdownRequested = true
  · have hstep : runSimulationStep E s = (false, s) := by
      simp only [runSimulationStep, if_pos hc]
    refine ⟨?_, fun _ => hstep, ?_, hshut⟩
    · rw [hstep]
      exact ⟨fun _ => hc, fun _ => rfl⟩
    · intro htrue
      rw [hstep] at htrue
      exact absurd htrue (by simp)
  · refine ⟨?_, fun h => absurd h hc, ?_, hshut⟩
    · simp only [runSimulationStep, if_neg hc]
      simp [hc]
    · intro _
      constructor
      · simp only [runSimulationStep, if_neg hc]
      · simp only [runSimulationStep, if_neg hc]

/-- The queue invariant: every queued event fires no earlier than the
current system time. -/
def QueueBound (c : SimCore) : Prop := ∀ e ∈ c.queue, c.systemTime ≤ e.time

/-- The engine's predictors only schedule future events: everything
`recompute` emits at time `t` fires at or after `t` (the predictors return
the smallest positive root, hence a strictly later time). -/
def FutureRecompute (E : Engine) : Prop :=
  ∀ t ps, ∀ e ∈ E.recompute t ps, t ≤ e.time

theorem executeEvent_step (E : Engine) (hE : FutureRecompute E) (c : SimCore)
    (hc : QueueBound c) :
    QueueBound (executeEvent E c) ∧ c.systemTime ≤ (executeEvent E c).systemTime := by
  cases hpop : popMin c.queue with
  | none => simp only [executeEvent, hpop]; exact ⟨hc, le_refl _⟩
  | some p =>
    obtain ⟨e, rest⟩ := p
    obtain ⟨hmem, hsub, hmin⟩ := popMin_spec c.queue e rest hpop
    simp only [executeEvent, hpop]
    constructor
    · intro x hx
      rcases List.mem_append.mp hx with hx | hx
      · exact hmin x (hsub x hx)
      · exact hE e.time _ x hx
    · exact hc e hmem

/-- **C7.** `systemTime` is non-decreasing over the whole run: under the
queue invariant, every queued event — in particular the one about to be
popped — satisfies `event.time ≥ systemTime`, so each executed event
advances `systemTime` by a non-negative delta, and both the invariant and
the monotonicity hold after every event. -/
theorem systemTime_monotone (E : Engine) (c : SimCore) (hE : FutureRecompute E)
    (hc : QueueBound c) :
    ∀ n, QueueBound ((executeEvent E)^[n] c) ∧
      (∀ e rest, popMin ((executeEvent E)^[n] c).queue = some (e, rest) →
        ((executeEvent E)^[n] c).systemTime ≤ e.time) ∧
      ((executeEvent E)^[n] c).systemTime
        ≤ (executeEvent E ((executeEvent E)^[n] c)).systemTime ∧
      c.systemTime ≤ ((executeEvent E)^[n] c).systemTime := by
  have main : ∀ n, QueueBound ((executeEvent E)^[n] c) ∧
      ((executeEvent E)^[n] c).systemTime
        ≤ (executeEvent E ((executeEvent E)^[n] c)).systemTime ∧
      c.systemTime ≤ ((executeEvent E)^[n] c).systemTime := by
    intro n
    induction n with
    | zero => exact ⟨hc, (executeEvent_step E hE c hc).2, le_refl _⟩
    | succ n ih =>
      obtain ⟨hq, hstep, hmono⟩ := ih
      have hq1 : QueueBound ((executeEvent E)^[n + 1] c) := by
        rw [Function.iterate_succ_apply']
        exact (executeEvent_step E hE _ hq).1
      refine ⟨hq1, (executeEvent_step E hE _ hq1).2, ?_⟩
      calc c.systemTime ≤ ((executeEvent E)^[n] c).systemTime := hmono
        _ ≤ (executeEvent E ((executeEvent E)^[n] c)).systemTime := hstep
        _ = ((executeEvent E)^[n + 1] c).systemTime := by
            rw [Function.iterate_succ_apply']
  intro n
  obtain ⟨hq, hstep, hmono⟩ := main n
  exact ⟨hq, fun e rest hp => hq e (popMin_spec _ e rest hp).1, hstep, hmono⟩

/-! ### Concrete instances used by the witnesses -/

/-- A minimal concrete engine: no regenerated events, identity particle
update, counting PRNG. -/
def testEngine : Engine :=
  { buildQueue := fun _ => [⟨1, 0⟩]
    updateParticles := fun _ ps => ps
    recompute := fun _ _ => []
    nextRng := fun n => n + 1 }

/-- A concrete core with one pending event at a future time. -/
def testCore : SimCore :=
  { particles := [⟨⟨0, 0, 0⟩, ⟨1, 0, 0⟩⟩]
    queue := [⟨2, 0⟩]
    systemTime := 1
    rng := 5 }

/-- A concrete mid-run state. -/
def testState : SimState :=
  { core := testCore
    eventCount := 7
    endEventCount := 9
    ecounters := [3]
    history := [⟨1, 0⟩]
    shutdownRequested := false }

/-- A concrete freshly loaded state holding the same configuration as
`testState`. -/
def testStateFresh : SimState :=
  { core := { particles := [⟨⟨0, 0, 0⟩, ⟨1, 0, 0⟩⟩], queue := [], systemTime := 1, rng := 5 }
    eventCount := 0
    endEventCount := 9
    ecounters := [0]
    history := []
    shutdownRequested := false }

/-- Witness for C2 at the concrete engine and states. -/
theorem reset_initialise_reproduces_witness :
    (initialise testEngine (reset testEngine testState)).core.queue
      = (initialise testEngine testStateFresh).core.queue ∧
    ∀ n, (executeEvent testEngine)^[n] (initialise testEngine (reset testEngine testState)).core
        = (executeEvent testEngine)^[n] (initialise testEngine testStateFresh).core :=
  reset_initialise_reproduces testEngine testState testStateFresh rfl rfl rfl

/-- Witness for C7 at the concrete engine and core. -/
theorem systemTime_monotone_witness :
    testCore.systemTime ≤ ((executeEvent testEngine)^[2] testCore).systemTime :=
  ((systemTime_monotone testEngine testCore
      (by intro t ps e he; simp [testEngine] at he)
      (by intro e he; simp [testCore] at he; subst he; norm_num [testCore])) 2).2.2.2

/-! ### The square-well event decision rule (modelled from the spec)

Only the declaration of `LNewtonianMC::SphereWellEvent` is among the
sources (part_000 lines 29–34); its implementation is not.  The decision
rule below is modelled from the specification (§4.C, stepped / square-well
execution). -/

/-- `Δ = μ (v_rel·n̂)² − 2·ΔU` evaluated at the well boundary. -/
def wellDelta (mu deltaU v : ℚ) : ℚ := mu * v ^ 2 - 2 * deltaU

/-- Modelled from the spec: the outcome of a square-well event with reduced
mass `mu`, step height `deltaU` (positive to cross outward) and incoming
normal relative velocity `v`.  `w` is the outgoing normal relative
velocity and `capChange` the increment applied to the pair's capture
count.  When `Δ ≥ 0` the pair crosses the step — `μ w² = Δ`, the sign of
`w` conserving the direction of motion, the capture count moving by one —
and when `Δ < 0` the event is a bounce: the normal velocity reflects
elastically and the capture count is unchanged. -/
def SphereWellOutcome (mu deltaU v w : ℚ) (capChange : ℤ) : Prop :=
  if 0 ≤ wellDelta mu deltaU v then
    mu * w ^ 2 = wellDelta mu deltaU v ∧ 0 ≤ w * v ∧ (capChange = 1 ∨ capChange = -1)
  else
    w = -v ∧ capChange = 0

/-- **C3.** For a square-well event with step height `ΔU` (positive to
cross outward) and reduced mass `μ`, with `Δ = μ (v_rel·n̂)² − 2·ΔU` at the
well boundary: if `Δ ≥ 0` the pair crosses the step and the outgoing
normal velocity `w` satisfies `μ w² = Δ` — that is, `w = ±√(Δ/μ)` — with
the sign conserving the direction of motion, the normal kinetic energy
dropping by exactly the barrier work; if `Δ < 0` the event is a bounce
that elastically reflects the normal relative velocity and leaves the
pair's capture count unchanged. -/
theorem sphereWellEvent_decision (mu deltaU v w : ℚ) (capChange : ℤ)
    (h : SphereWellOutcome mu deltaU v w capChange) :
    (0 ≤ wellDelta mu deltaU v →
      mu * w ^ 2 = mu * v ^ 2 - 2 * deltaU ∧
      mu * w ^ 2 / 2 + deltaU = mu * v ^ 2 / 2 ∧
      0 ≤ w * v) ∧
    (wellDelta mu deltaU v < 0 →
      w = -v ∧ w ^ 2 = v ^ 2 ∧ capChange = 0) := by
  unfold SphereWellOutcome at h
  by_cases hd : 0 ≤ wellDelta mu deltaU v
  · rw [if_pos hd] at h
    obtain ⟨h1, h2, _⟩ := h
    refine ⟨fun _ => ⟨?_, ?_, h2⟩, fun hlt => absurd hlt (not_lt.mpr hd)⟩
    · rw [h1]; rfl
    · rw [h1]; unfold wellDelta; ring
  · rw [if_neg hd] at h
    obtain ⟨h1, h2⟩ := h
    exact ⟨fun hge => absurd hge hd, fun _ => ⟨h1, by rw [h1]; ring, h2⟩⟩

/-- Witness for C3: a crossing event with `μ = 1`, `ΔU = 3/2`, incoming
normal velocity `2`, outgoing `1`. -/
theorem sphereWellEvent_decision_witness :
    (0 ≤ wellDelta 1 (3 / 2) 2 →
      1 * (1 : ℚ) ^ 2 = 1 * 2 ^ 2 - 2 * (3 / 2) ∧
      1 * (1 : ℚ) ^ 2 / 2 + 3 / 2 = 1 * 2 ^ 2 / 2 ∧
      (0 : ℚ) ≤ 1 * 2) ∧
    (wellDelta 1 (3 / 2) 2 < 0 →
      (1 : ℚ) = -2 ∧ (1 : ℚ) ^ 2 = 2 ^ 2 ∧ (1 : ℤ) = 0) :=
  sphereWellEvent_decision 1 (3 / 2) 2 1 1
    (by unfold SphereWellOutcome wellDelta; norm_num)

end Dynamo
